import Mathlib

/-!
Verification of the `simple_cursor` crate: a character cursor over a UTF-8
input text, tracking the current byte position.  The input text is embedded
as its sequence of code points (`List Char`); the `Chars` iterator over the
remaining input is the remaining list, and `str::len` of the remaining slice
is the sum of the UTF-8 byte lengths of its code points.
-/

namespace SimpleCursor

/-- UTF-8 encoded byte length of a code point, as computed by
`char::len_utf8`. -/
def len_utf8 (c : Char) : Nat :=
  if c.val < 0x80 then 1
  else if c.val < 0x800 then 2
  else if c.val < 0x10000 then 3
  else 4

/-- Byte length of a code-point sequence: `as_str().len()` of the iterator
view over that sequence. -/
def utf8Length (l : List Char) : Nat :=
  (l.map len_utf8).sum

/-- `Chars::next`: the next code point (if any) together with the advanced
iterator state. -/
def charsNext (l : List Char) : Option Char × List Char :=
  (l.head?, l.tail)

/-- The `Cursor` struct: the remaining character iterator and the current
byte position into the original input. -/
structure Cursor where
  chars : List Char
  byte_pos : Nat
deriving Repr, DecidableEq

/-- `Cursor::new`: a cursor over the full input with `byte_pos = 0`. -/
def Cursor.new (input : List Char) : Cursor :=
  { chars := input, byte_pos := 0 }

/-- `Cursor::peek`: inspect the next character on a clone of the iterator;
the cursor itself is returned unchanged (the method takes `&self`). -/
def Cursor.peek (cur : Cursor) : Option Char × Cursor :=
  let cloned := cur.chars
  ((charsNext cloned).1, cur)

/-- `Cursor::peek_two`: advance a clone of the iterator twice; the cursor
itself is returned unchanged (the method takes `&self`). -/
def Cursor.peek_two (cur : Cursor) : (Option Char × Option Char) × Cursor :=
  let cloned := cur.chars
  let s1 := charsNext cloned
  let s2 := charsNext s1.2
  ((s1.1, s2.1), cur)

/-- `Cursor::bump`: advance the iterator, then bump `byte_pos` by the UTF-8
length of the returned character (`unwrap_or_default()` gives 0 on `None`). -/
def Cursor.bump (cur : Cursor) : Option Char × Cursor :=
  let s := charsNext cur.chars
  (s.1, { chars := s.2, byte_pos := cur.byte_pos + (s.1.map len_utf8).getD 0 })

/-- `Cursor::bump_two`: advance the iterator twice, then bump `byte_pos` by
each returned character's UTF-8 length in turn. -/
def Cursor.bump_two (cur : Cursor) : (Option Char × Option Char) × Cursor :=
  let s1 := charsNext cur.chars
  let s2 := charsNext s1.2
  ((s1.1, s2.1),
    { chars := s2.2,
      byte_pos :=
        cur.byte_pos + (s1.1.map len_utf8).getD 0 + (s2.1.map len_utf8).getD 0 })

/-- The `while matches!(self.peek(), Some(c) if predicate(c))` loop of
`Cursor::skip_while`, acting on the character iterator alone. -/
def skipLoop (p : Char → Bool) : List Char → List Char
  | [] => []
  | c :: rest => if p c then skipLoop p rest else c :: rest

/-- `Cursor::skip_while`: run the peek-then-advance loop on the iterator and
bump `byte_pos` once, by the difference of the remaining byte lengths
before and after the loop. -/
def Cursor.skip_while (cur : Cursor) (p : Char → Bool) : Cursor :=
  let start_length := utf8Length cur.chars
  let chars := skipLoop p cur.chars
  let final_length := utf8Length chars
  { chars := chars, byte_pos := cur.byte_pos + (start_length - final_length) }

/-- `bumpN cur n`: call `bump` `n` times, discarding the returned
characters (the driver loop for repeated consumption). -/
def bumpN : Cursor → Nat → Cursor
  | cur, 0 => cur
  | cur, n + 1 => bumpN (cur.bump).2 n

/-- One application of a documented cursor operation, relating the state
before to the state after. -/
inductive Step : Cursor → Cursor → Prop
  | peek (cur : Cursor) : Step cur (cur.peek).2
  | peek_two (cur : Cursor) : Step cur (cur.peek_two).2
  | bump (cur : Cursor) : Step cur (cur.bump).2
  | bump_two (cur : Cursor) : Step cur (cur.bump_two).2
  | skip_while (cur : Cursor) (p : Char → Bool) : Step cur (cur.skip_while p)

/-- A cursor state reachable from `Cursor.new input` by some sequence of
documented operations. -/
def Reach (input : List Char) (cur : Cursor) : Prop :=
  Relation.ReflTransGen Step (Cursor.new input) cur

/-! ### Helper lemmas -/

theorem utf8Length_append (a b : List Char) :
    utf8Length (a ++ b) = utf8Length a + utf8Length b := by
  simp [utf8Length]

theorem utf8Length_cons (c : Char) (l : List Char) :
    utf8Length (c :: l) = len_utf8 c + utf8Length l := by
  simp [utf8Length]

theorem skipLoop_eq_dropWhile (p : Char → Bool) (l : List Char) :
    skipLoop p l = l.dropWhile p := by
  induction l with
  | nil => rfl
  | cons c rest ih => simp [skipLoop, List.dropWhile_cons, ih]

theorem bump_two_eq_bumps (cur : Cursor) :
    cur.bump_two = (((cur.bump).1, (((cur.bump).2).bump).1), (((cur.bump).2).bump).2) := by
  rfl

theorem skip_while_chars (cur : Cursor) (p : Char → Bool) :
    (cur.skip_while p).chars = cur.chars.dropWhile p := by
  simp [Cursor.skip_while, skipLoop_eq_dropWhile]

theorem skip_while_pos (cur : Cursor) (p : Char → Bool) :
    (cur.skip_while p).byte_pos = cur.byte_pos + utf8Length (cur.chars.takeWhile p) := by
  have hsplit : cur.chars.takeWhile p ++ cur.chars.dropWhile p = cur.chars :=
    List.takeWhile_append_dropWhile p cur.chars
  have hlen : utf8Length cur.chars
      = utf8Length (cur.chars.takeWhile p) + utf8Length (cur.chars.dropWhile p) := by
    conv_lhs => rw [← hsplit]
    exact utf8Length_append _ _
  simp only [Cursor.skip_while, skipLoop_eq_dropWhile]
  omega

theorem all_takeWhile (p : Char → Bool) (l : List Char) :
    (l.takeWhile p).all p = true := by
  induction l with
  | nil => rfl
  | cons c rest ih =>
    by_cases h : p c = true
    · simp [List.takeWhile_cons, h, ih]
    · simp [List.takeWhile_cons, h]

theorem head_dropWhile_not (p : Char → Bool) (l : List Char) :
    Option.all (fun c => !p c) (l.dropWhile p).head? = true := by
  induction l with
  | nil => rfl
  | cons c rest ih =>
    by_cases h : p c = true
    · simpa [List.dropWhile_cons, h] using ih
    · simp [List.dropWhile_cons, h]

/-- The representation invariant: the remaining characters are a suffix of
the input, and `byte_pos` is the byte length of the consumed prefix. -/
def Inv (input : List Char) (cur : Cursor) : Prop :=
  ∃ pre, pre ++ cur.chars = input ∧ cur.byte_pos = utf8Length pre

theorem inv_new (input : List Char) : Inv input (Cursor.new input) :=
  ⟨[], rfl, rfl⟩

theorem inv_bump {input : List Char} {cur : Cursor} (h : Inv input cur) :
    Inv input (cur.bump).2 := by
  obtain ⟨pre, hpre, hpos⟩ := h
  obtain ⟨l, bp⟩ := cur
  cases l with
  | nil => exact ⟨pre, hpre, hpos⟩
  | cons c rest =>
    refine ⟨pre ++ [c], ?_, ?_⟩
    · simpa [Cursor.bump, charsNext, List.append_assoc] using hpre
    · simp only [Cursor.bump, charsNext] at hpos ⊢
      simp [utf8Length_append, utf8Length_cons, utf8Length] at hpos ⊢
      omega

theorem inv_skip_while {input : List Char} {cur : Cursor} (p : Char → Bool)
    (h : Inv input cur) : Inv input (cur.skip_while p) := by
  obtain ⟨pre, hpre, hpos⟩ := h
  refine ⟨pre ++ cur.chars.takeWhile p, ?_, ?_⟩
  · rw [List.append_assoc, skip_while_chars, List.takeWhile_append_dropWhile]
    exact hpre
  · rw [skip_while_pos, utf8Length_append, hpos]

theorem inv_step {input : List Char} {cur next : Cursor} (h : Inv input cur)
    (hs : Step cur next) : Inv input next := by
  cases hs with
  | peek => exact h
  | peek_two => exact h
  | bump => exact inv_bump h
  | bump_two =>
    rw [bump_two_eq_bumps]
    exact inv_bump (inv_bump h)
  | skip_while p => exact inv_skip_while p h

theorem step_mono {cur next : Cursor} (hs : Step cur next) :
    cur.byte_pos ≤ next.byte_pos := by
  cases hs with
  | peek => exact le_refl _
  | peek_two => exact le_refl _
  | bump => exact Nat.le_add_right _ _
  | bump_two => exact le_trans (Nat.le_add_right _ _) (Nat.le_add_right _ _)
  | skip_while p => exact Nat.le_add_right _ _

/-! ### Claims -/

/-- C1: every cursor state reachable from `Cursor.new input` keeps the
remaining characters equal to the suffix of the input whose consumed prefix
occupies exactly `byte_pos` bytes (so `byte_pos` is always a code-point
boundary of the input), and no documented operation ever decreases
`byte_pos`. -/
theorem reachable_invariant (input : List Char) (cur : Cursor)
    (h : Reach input cur) :
    (∃ pre, pre ++ cur.chars = input ∧ cur.byte_pos = utf8Length pre) ∧
    ∀ next, Step cur next → cur.byte_pos ≤ next.byte_pos := by
  refine ⟨?_, fun next hs => step_mono hs⟩
  induction h with
  | refl => exact inv_new input
  | tail _ hs ih => exact inv_step ih hs

/-- Witness for C1 at the concrete input `['a']` and its initial state. -/
theorem reachable_invariant_witness :
    Reach ['a'] (Cursor.new ['a']) ∧
    ((∃ pre, pre ++ (Cursor.new ['a']).chars = ['a'] ∧
        (Cursor.new ['a']).byte_pos = utf8Length pre) ∧
      ∀ next, Step (Cursor.new ['a']) next → (Cursor.new ['a']).byte_pos ≤ next.byte_pos) :=
  ⟨Relation.ReflTransGen.refl,
    reachable_invariant ['a'] (Cursor.new ['a']) Relation.ReflTransGen.refl⟩

/-- C2: `skip_while p` consumes exactly the longest prefix of the remaining
code points on which `p` holds (every consumed code point satisfies `p`),
and afterwards `peek` is either empty or a code point failing `p`. -/
theorem skip_while_longest_matching (cur : Cursor) (p : Char → Bool) :
    (cur.skip_while p).chars = cur.chars.dropWhile p ∧
    cur.chars.takeWhile p ++ (cur.skip_while p).chars = cur.chars ∧
    (cur.chars.takeWhile p).all p = true ∧
    Option.all (fun c => !p c) ((cur.skip_while p).peek).1 = true := by
  refine ⟨skip_while_chars cur p, ?_, all_takeWhile p cur.chars, ?_⟩
  · rw [skip_while_chars]
    exact List.takeWhile_append_dropWhile p cur.chars
  · show Option.all (fun c => !p c) ((cur.skip_while p).chars).head? = true
    rw [skip_while_chars]
    exact head_dropWhile_not p cur.chars

/-- C3: `bump_two` returns exactly the pair of results of two sequential
`bump` calls and ends in exactly the state (same remaining characters, same
byte position) those two calls end in. -/
theorem bump_two_refines_bumps (cur : Cursor) :
    cur.bump_two = (((cur.bump).1, (((cur.bump).2).bump).1), (((cur.bump).2).bump).2) :=
  bump_two_eq_bumps cur

/-- C4: `peek` returns the same code point an immediately following `bump`
returns, and `bump` advances `byte_pos` by exactly the UTF-8 byte length of
the returned code point (0 when the result is empty). -/
theorem peek_bump_agree (cur : Cursor) :
    (cur.peek).1 = (cur.bump).1 ∧
    ((cur.bump).2).byte_pos = cur.byte_pos + ((cur.bump).1.map len_utf8).getD 0 :=
  ⟨rfl, rfl⟩

/-- C5: bumping `input.length` times from the initial cursor advances
`byte_pos` to exactly the byte length of the input, empties the iterator,
and every further `bump` returns the empty result and leaves the state
(hence `byte_pos`) unchanged. -/
theorem bump_until_exhausted (input : List Char) :
    (bumpN (Cursor.new input) input.length).byte_pos = utf8Length input ∧
    (bumpN (Cursor.new input) input.length).chars = [] ∧
    ((bumpN (Cursor.new input) input.length).bump).1 = none ∧
    ((bumpN (Cursor.new input) input.length).bump).2 = bumpN (Cursor.new input) input.length := by
  have key : ∀ (l : List Char) (bp : Nat),
      bumpN ⟨l, bp⟩ l.length = ⟨[], bp + utf8Length l⟩ := by
    intro l
    induction l with
    | nil => intro bp; simp [bumpN, utf8Length]
    | cons c rest ih =>
      intro bp
      show bumpN ((Cursor.bump ⟨c :: rest, bp⟩).2) rest.length = _
      rw [show (Cursor.bump ⟨c :: rest, bp⟩).2 = ⟨rest, bp + len_utf8 c⟩ from rfl]
      rw [ih (bp + len_utf8 c), utf8Length_cons]
      congr 1
      omega
  have h := key input 0
  rw [show Cursor.new input = ⟨input, 0⟩ from rfl, h]
  refine ⟨by simp, rfl, rfl, rfl⟩

/-- C6: the batched byte-position update of `skip_while` (one subtraction of
remaining byte lengths) equals the sum of the UTF-8 byte lengths of the code
points actually skipped, i.e. of the matching prefix. -/
theorem skip_while_byte_accounting (cur : Cursor) (p : Char → Bool) :
    (cur.skip_while p).byte_pos = cur.byte_pos + utf8Length (cur.chars.takeWhile p) :=
  skip_while_pos cur p

/-- C7: `peek` and `peek_two` leave the cursor completely unchanged, and two
consecutive `peek` calls return the same value with `byte_pos` untouched by
both. -/
theorem peek_frame (cur : Cursor) :
    (cur.peek).2 = cur ∧
    (cur.peek_two).2 = cur ∧
    (((cur.peek).2).peek).1 = (cur.peek).1 ∧
    ((cur.peek).2).byte_pos = cur.byte_pos ∧
    ((((cur.peek).2).peek).2).byte_pos = cur.byte_pos :=
  ⟨rfl, rfl, rfl, rfl, rfl⟩

/-- C8: `peek_two` returns the pair (peek at position 0, peek one position
ahead) — the second component being what `peek` returns after one `bump` —
and mutates nothing. -/
theorem peek_two_components (cur : Cursor) :
    (cur.peek_two).1.1 = (cur.peek).1 ∧
    (cur.peek_two).1.2 = ((((cur.bump).2)).peek).1 ∧
    (cur.peek_two).2 = cur :=
  ⟨rfl, rfl, rfl⟩

/-- C9: constructing a cursor always succeeds with `byte_pos = 0` and the
iterator covering the full text; on the empty text the cursor immediately
reports exhaustion (`peek` and `bump` give the empty result, `byte_pos`
stays 0). -/
theorem new_cursor_start (input : List Char) :
    (Cursor.new input).byte_pos = 0 ∧
    (Cursor.new input).chars = input ∧
    ((Cursor.new ([] : List Char)).peek).1 = none ∧
    ((Cursor.new ([] : List Char)).bump).1 = none ∧
    (((Cursor.new ([] : List Char)).bump).2).byte_pos = 0 :=
  ⟨rfl, rfl, rfl, rfl, rfl⟩

/-- C10: `bump_two` never returns (absent, present): when the first
component is empty, so is the second, and `byte_pos` is unchanged. -/
theorem bump_two_no_gap (cur : Cursor) (h : (cur.bump_two).1.1 = none) :
    (cur.bump_two).1.2 = none ∧ ((cur.bump_two).2).byte_pos = cur.byte_pos := by
  obtain ⟨l, bp⟩ := cur
  cases l with
  | nil => exact ⟨rfl, rfl⟩
  | cons c rest =>
    exact absurd h (Option.noConfusion)

/-- Witness for C10 at the empty input. -/
theorem bump_two_no_gap_witness :
    ((Cursor.new []).bump_two).1.1 = none ∧
    (((Cursor.new []).bump_two).1.2 = none ∧
      (((Cursor.new []).bump_two).2).byte_pos = (Cursor.new []).byte_pos) :=
  ⟨rfl, bump_two_no_gap (Cursor.new []) rfl⟩

end SimpleCursor
